import Mathlib

/-!
Verification of the CUDA 2D convolution kernels in
src/examples/cuda/convolution.cu (tiled shared-memory kernel
convolution_kernel and the direct reference kernel convolution_naive).

The kernels are shallowly embedded over an arbitrary commutative ring R
(exact arithmetic standing in for single-precision floats).  Compile-time
macro parameters (image/filter/block/tile extents) become a configuration
structure; the compile-time #if selecting the boundary-checked versus the
unconditional code path becomes a Bool parameter, with the real kernel
instantiating it from the divisibility test of the source macro.  Shared
memory, per-thread registers and the global output buffer are explicit
state; uninitialized shared memory and registers are modelled by arbitrary
functions u and r0 so that (in)dependence on them is provable.  Loops are
folds over explicit finite iteration lists; the parallel execution is
linearized (all output writes of distinct threads target distinct indices,
and shared memory is written before the barrier and only read after it).
-/

namespace Convolution

/-- Compile-time configuration of the kernels: the #define parameters
image_height, image_width, filter_height, filter_width and the tuning
parameters block_size_y, block_size_x, tile_size_y, tile_size_x. -/
structure Cfg where
  image_height : Nat
  image_width : Nat
  filter_height : Nat
  filter_width : Nat
  block_size_y : Nat
  block_size_x : Nat
  tile_size_y : Nat
  tile_size_x : Nat

/-- border_height = (filter_height/2)*2. -/
def border_height (c : Cfg) : Nat := c.filter_height / 2 * 2

/-- border_width = (filter_width/2)*2. -/
def border_width (c : Cfg) : Nat := c.filter_width / 2 * 2

/-- input_height = image_height + border_height. -/
def input_height (c : Cfg) : Nat := c.image_height + border_height c

/-- input_width = image_width + border_width. -/
def input_width (c : Cfg) : Nat := c.image_width + border_width c

/-- i_end = min(block_size_y*tile_size_y+border_height, input_height). -/
def i_end (c : Cfg) : Nat :=
  min (c.block_size_y * c.tile_size_y + border_height c) (input_height c)

/-- j_end = min(block_size_x*tile_size_x+border_width, input_width). -/
def j_end (c : Cfg) : Nat :=
  min (c.block_size_x * c.tile_size_x + border_width c) (input_width c)

/-- The compile-time mode test: the unconditional (exact-tiling) code path is
compiled exactly when image_height % (block_size_y*tile_size_y) == 0 and
image_width % (block_size_x*tile_size_x) == 0; otherwise the
boundary-checked path is compiled. -/
def exactTiling (c : Cfg) : Bool :=
  decide (c.image_height % (c.block_size_y * c.tile_size_y) = 0) &&
  decide (c.image_width % (c.block_size_x * c.tile_size_x) = 0)

/-- by = blockIdx.y * block_size_y * tile_size_y. -/
def blockY (c : Cfg) (byIdx : Nat) : Nat := byIdx * (c.block_size_y * c.tile_size_y)

/-- bx = blockIdx.x * block_size_x * tile_size_x. -/
def blockX (c : Cfg) (bxIdx : Nat) : Nat := bxIdx * (c.block_size_x * c.tile_size_x)

/-- Global output row of register offset yi of thread ty in block byIdx:
y = by + ty + yi*block_size_y. -/
def outY (c : Cfg) (byIdx ty yi : Nat) : Nat := blockY c byIdx + ty + yi * c.block_size_y

/-- Global output column of register offset xi of thread tx in block bxIdx:
x = bx + tx + xi*block_size_x. -/
def outX (c : Cfg) (bxIdx tx xi : Nat) : Nat := blockX c bxIdx + tx + xi * c.block_size_x

/-- Flat row-major index into the output buffer: y * image_width + x. -/
def outIdx (c : Cfg) (y x : Nat) : Nat := y * c.image_width + x

/-- The store-phase guard of the tiled kernel: in the unconditional mode the
store always happens, in boundary-safe mode only for
y < image_height && x < image_width. -/
def fire (c : Cfg) (mode : Bool) (y x : Nat) : Prop :=
  mode = true ∨ (y < c.image_height ∧ x < c.image_width)

/-- Iteration values of the C loop for (v = start; v < bound; v += step),
listed in increasing order. -/
def strideList (start step bound : Nat) : List Nat :=
  (List.range bound).filter fun m => decide (start ≤ m) && decide ((m - start) % step = 0)

/-- Whether the staging phase of block (byIdx,bxIdx) writes shared-memory
position (i,j): the position must be inside the staged extent
(i < i_end, j < j_end), and in boundary-safe mode the computed global
coordinates must additionally be in range of the input buffer. -/
def isStaged (c : Cfg) (mode : Bool) (byIdx bxIdx i j : Nat) : Bool :=
  decide (i < i_end c) && decide (j < j_end c) &&
    (mode || (decide (blockY c byIdx + i < input_height c) &&
              decide (blockX c bxIdx + j < input_width c)))

/-- Partial sum over row n excluded: sum of f over 0,...,n-1. -/
def lsum {R : Type} [CommRing R] (n : Nat) (f : Nat → R) : R :=
  ((List.range n).map f).sum

/-- The double loop of convolution_naive: sum over j < filter_height,
i < filter_width of input[(y+j)*input_width + (x+i)] * filter[j*filter_width+i],
as the source writes it (one accumulator threaded through both loops). -/
def convolution_naive_sum {R : Type} [CommRing R] (c : Cfg) (input filter : Nat → R)
    (y x : Nat) : R :=
  (List.range c.filter_height).foldl (fun sum j =>
    (List.range c.filter_width).foldl (fun sum i =>
      sum + input ((y + j) * input_width c + (x + i)) * filter (j * c.filter_width + i))
      sum) 0

/-- One thread of the naive kernel with global coordinates (y,x), as a
transformer of the output buffer: active only when y < image_height and
x < image_width, in which case it writes its scalar sum once to
output[y*image_width + x]. -/
def convolution_naive {R : Type} [CommRing R] (c : Cfg) (input filter : Nat → R)
    (y x : Nat) (output : Nat → R) : Nat → R :=
  if y < c.image_height ∧ x < c.image_width then
    fun k => if k = outIdx c y x then convolution_naive_sum c input filter y x else output k
  else output

/-- The weighted sum that both kernels are specified to compute at output
element (y,x). -/
def pureVal {R : Type} [CommRing R] (c : Cfg) (input d_filter : Nat → R) (y x : Nat) : R :=
  lsum c.filter_height fun j => lsum c.filter_width fun i =>
    input ((y + j) * input_width c + (x + i)) * d_filter (j * c.filter_width + i)

/-- Per-thread view of the machine state during one block of the tiled
kernel: the global output buffer, the block's shared scratch tile sh_input,
and the thread's accumulator registers sum[tile_size_y][tile_size_x]. -/
structure KState (R : Type) where
  output : Nat → R
  sh : Nat → Nat → R
  sum : Nat → Nat → R

/-- Write v into shared-memory position (i,j). -/
def shStore {R : Type} (i j : Nat) (v : R) (s : KState R) : KState R :=
  { s with sh := fun a b => if a = i ∧ b = j then v else s.sh a b }

/-- Write v into accumulator register (yi,xi). -/
def sumStore {R : Type} (yi xi : Nat) (v : R) (s : KState R) : KState R :=
  { s with sum := fun a b => if a = yi ∧ b = xi then v else s.sum a b }

/-- Write v into global output buffer position k. -/
def outStore {R : Type} (k : Nat) (v : R) (s : KState R) : KState R :=
  { s with output := fun a => if a = k then v else s.output a }

/-- The staging loop of one thread (ty,tx): for (i=ty; i<i_end; i+=block_size_y)
for (j=tx; j<j_end; j+=block_size_x), load input[(by+i)*input_width+(bx+j)]
into sh_input[i][j]; in boundary-safe mode the load is guarded by
y < input_height && x < input_width and skipped otherwise. -/
def stageThread {R : Type} [CommRing R] (c : Cfg) (mode : Bool) (input : Nat → R)
    (byIdx bxIdx ty tx : Nat) (s : KState R) : KState R :=
  (strideList ty c.block_size_y (i_end c)).foldl (fun s i =>
    (strideList tx c.block_size_x (j_end c)).foldl (fun s j =>
      if mode then
        shStore i j (input ((blockY c byIdx + i) * input_width c + (blockX c bxIdx + j))) s
      else
        if blockY c byIdx + i < input_height c ∧ blockX c bxIdx + j < input_width c then
          shStore i j (input ((blockY c byIdx + i) * input_width c + (blockX c bxIdx + j))) s
        else s) s) s

/-- All thread coordinates (ty,tx) of one thread block. -/
def threads (c : Cfg) : List (Nat × Nat) :=
  (List.range c.block_size_y).flatMap fun ty =>
    (List.range c.block_size_x).map fun tx => (ty, tx)

/-- The cooperative staging phase of a whole block: every thread runs its
staging loop; all writes target distinct shared-memory positions, so the
sequential fold is a faithful linearization of the parallel execution
(the __syncthreads barrier follows). -/
def stageBlock {R : Type} [CommRing R] (c : Cfg) (mode : Bool) (input : Nat → R)
    (byIdx bxIdx : Nat) (s : KState R) : KState R :=
  (threads c).foldl (fun s t => stageThread c mode input byIdx bxIdx t.1 t.2 s) s

/-- The shared tile contents after the staging phase and barrier: staged
positions hold the corresponding input element, skipped positions keep the
uninitialized contents u. -/
def stagedSh {R : Type} (c : Cfg) (mode : Bool) (input : Nat → R) (u : Nat → Nat → R)
    (byIdx bxIdx : Nat) : Nat → Nat → R :=
  fun i j =>
    if isStaged c mode byIdx bxIdx i j then
      input ((blockY c byIdx + i) * input_width c + (blockX c bxIdx + j))
    else u i j

/-- The register-zeroing loop: sum[yi][xi] = 0.0f for all register offsets. -/
def initAcc {R : Type} [CommRing R] (c : Cfg) (s : KState R) : KState R :=
  (List.range c.tile_size_y).foldl (fun s yi =>
    (List.range c.tile_size_x).foldl (fun s xi => sumStore yi xi 0 s) s) s

/-- Innermost accumulation loop (over xi) of the compute phase for fixed
filter coefficient (i,j) and register row yi:
sum[yi][xi] += sh_input[ty+yi*block_size_y+i][tx+xi*block_size_x+j] * d_filter[i*filter_width+j]. -/
def computeInnerX {R : Type} [CommRing R] (c : Cfg) (d_filter : Nat → R)
    (ty tx i j yi : Nat) (s : KState R) : KState R :=
  (List.range c.tile_size_x).foldl (fun s xi =>
    sumStore yi xi
      (s.sum yi xi +
        s.sh (ty + yi * c.block_size_y + i) (tx + xi * c.block_size_x + j) *
          d_filter (i * c.filter_width + j)) s) s

/-- Accumulation loop over the register rows yi for fixed filter
coefficient (i,j). -/
def computeInnerY {R : Type} [CommRing R] (c : Cfg) (d_filter : Nat → R)
    (ty tx i j : Nat) (s : KState R) : KState R :=
  (List.range c.tile_size_y).foldl (fun s yi => computeInnerX c d_filter ty tx i j yi s) s

/-- The register-blocked compute phase of one thread: for each filter
coefficient (i,j) in row-major order, accumulate into every register. -/
def computeThread {R : Type} [CommRing R] (c : Cfg) (d_filter : Nat → R)
    (ty tx : Nat) (s : KState R) : KState R :=
  (List.range c.filter_height).foldl (fun s i =>
    (List.range c.filter_width).foldl (fun s j => computeInnerY c d_filter ty tx i j s) s) s

/-- The shared-memory positions read by the compute phase of thread (ty,tx)
while accumulating register (yi,xi). -/
def computeReads (c : Cfg) (ty tx yi xi : Nat) : List (Nat × Nat) :=
  (List.range c.filter_height).flatMap fun i =>
    (List.range c.filter_width).map fun j =>
      (ty + yi * c.block_size_y + i, tx + xi * c.block_size_x + j)

/-- The value accumulated in register (yi,xi) of thread (ty,tx) by the
compute phase over a shared tile S: the filter sweep of the source,
summed coefficient-by-coefficient. -/
def tileVal {R : Type} [CommRing R] (c : Cfg) (d_filter : Nat → R)
    (S : Nat → Nat → R) (ty tx yi xi : Nat) : R :=
  lsum c.filter_height fun i => lsum c.filter_width fun j =>
    S (ty + yi * c.block_size_y + i) (tx + xi * c.block_size_x + j) *
      d_filter (i * c.filter_width + j)

/-- The store phase of one thread: write each accumulator to
output[y*image_width+x]; in boundary-safe mode only when
y < image_height && x < image_width. -/
def storeThread {R : Type} [CommRing R] (c : Cfg) (mode : Bool)
    (byIdx bxIdx ty tx : Nat) (s : KState R) : KState R :=
  (List.range c.tile_size_y).foldl (fun s yi =>
    (List.range c.tile_size_x).foldl (fun s xi =>
      if mode then
        outStore (outIdx c (outY c byIdx ty yi) (outX c bxIdx tx xi)) (s.sum yi xi) s
      else
        if outY c byIdx ty yi < c.image_height ∧ outX c bxIdx tx xi < c.image_width then
          outStore (outIdx c (outY c byIdx ty yi) (outX c bxIdx tx xi)) (s.sum yi xi) s
        else s) s) s

/-- The post-barrier work of one thread as a transformer of the output
buffer: zero the registers, run the compute phase against the staged shared
tile S, then run the store phase. -/
def threadOut {R : Type} [CommRing R] (c : Cfg) (mode : Bool) (d_filter : Nat → R)
    (byIdx bxIdx ty tx : Nat) (S : Nat → Nat → R) (r0 : Nat → Nat → R)
    (o : Nat → R) : Nat → R :=
  (storeThread c mode byIdx bxIdx ty tx
    (computeThread c d_filter ty tx (initAcc c ⟨o, S, r0⟩))).output

/-- One block of the tiled kernel: cooperative staging of the shared tile
(starting from uninitialized contents u), barrier, then every thread
computes and stores its register tile (registers start uninitialized
at r0). -/
def runBlock {R : Type} [CommRing R] (c : Cfg) (mode : Bool) (input d_filter : Nat → R)
    (u r0 : Nat → Nat → R) (byIdx bxIdx : Nat) (out : Nat → R) : Nat → R :=
  (threads c).foldl (fun o t =>
    threadOut c mode d_filter byIdx bxIdx t.1 t.2
      (stageBlock c mode input byIdx bxIdx ⟨out, u, r0⟩).sh r0 o) out

/-- All block coordinates of a gy × gx launch grid. -/
def blocks (gy gx : Nat) : List (Nat × Nat) :=
  (List.range gy).flatMap fun a => (List.range gx).map fun b => (a, b)

/-- A full launch of the tiled kernel in a fixed mode over a gy × gx grid:
the blocks write disjoint output regions, so the sequential fold is a
faithful linearization. -/
def runKernel {R : Type} [CommRing R] (c : Cfg) (mode : Bool) (input d_filter : Nat → R)
    (u r0 : Nat → Nat → R) (gy gx : Nat) (out0 : Nat → R) : Nat → R :=
  (blocks gy gx).foldl (fun o bk => runBlock c mode input d_filter u r0 bk.1 bk.2 o) out0

/-- The tiled kernel as compiled: the mode is fixed from the compile-time
divisibility test.  The filter argument mirrors the unused float *filter
parameter of the source; the coefficients are read from the constant-memory
array d_filter. -/
def convolution_kernel {R : Type} [CommRing R] (c : Cfg) (d_filter : Nat → R)
    (input filter : Nat → R) (u r0 : Nat → Nat → R) (gy gx : Nat)
    (out0 : Nat → R) : Nat → R :=
  runKernel c (exactTiling c) input d_filter u r0 gy gx out0

/-- Some iteration of the tiled kernel's store phase writes output index k. -/
def writesIdx (c : Cfg) (mode : Bool) (gy gx k : Nat) : Prop :=
  ∃ a, a < gy ∧ ∃ b, b < gx ∧
    ∃ ty, ty < c.block_size_y ∧ ∃ tx, tx < c.block_size_x ∧
      ∃ yi, yi < c.tile_size_y ∧ ∃ xi, xi < c.tile_size_x ∧
        fire c mode (outY c a ty yi) (outX c b tx xi) ∧
        k = outIdx c (outY c a ty yi) (outX c b tx xi)

/-- A small concrete configuration whose image extent (3×3) is not divisible
by the per-block output extent (2×2), so the boundary-checked path is
compiled: image 3×3, filter 3×3, 2×2 threads per block, 1×1 registers. -/
def cW : Cfg := ⟨3, 3, 3, 3, 2, 2, 1, 1⟩

/-- A small concrete configuration with exactly divisible dimensions:
image 4×4, filter 3×3, 2×2 threads per block, 1×1 registers. -/
def cE : Cfg := ⟨4, 4, 3, 3, 2, 2, 1, 1⟩

/-- A minimal configuration (1×1 image, 1×1 filter, one thread). -/
def cM : Cfg := ⟨1, 1, 1, 1, 1, 1, 1, 1⟩

/-- A fold whose steps all preserve an observation g leaves g unchanged. -/
theorem foldl_keep {α σ V : Type} (f : σ → α → σ) (g : σ → V) :
    ∀ (L : List α) (s : σ), (∀ s' a, a ∈ L → g (f s' a) = g s') →
      g (List.foldl f s L) = g s := by
  intro L
  induction L with
  | nil => intro s _; rfl
  | cons a L ih =>
    intro s h
    have h1 : g (f s a) = g s := h s a (List.mem_cons_self a L)
    have h2 := ih (f s a) (fun s' b hb => h s' b (List.mem_cons_of_mem a hb))
    calc g (List.foldl f (f s a) L) = g (f s a) := h2
      _ = g s := h1

/-- If every step of a fold either writes the step-invariant value v into the
observed cell g or leaves g unchanged, and some step in the list writes it,
then after the fold g holds v. -/
theorem foldl_write {α σ V : Type} (f : σ → α → σ) (g v : σ → V) (P : α → Prop) :
    ∀ (L : List α) (s : σ),
      (∀ s' a, a ∈ L → v (f s' a) = v s') →
      (∀ s' a, a ∈ L → P a → g (f s' a) = v s') →
      (∀ s' a, a ∈ L → ¬ P a → g (f s' a) = g s') →
      (∃ a ∈ L, P a) →
      g (List.foldl f s L) = v s := by
  intro L
  induction L with
  | nil => rintro s _ _ _ ⟨a, ha, _⟩; exact absurd ha (List.not_mem_nil a)
  | cons a L ih =>
    intro s hv h1 h2 hex
    by_cases hP : ∃ b ∈ L, P b
    · have := ih (f s a)
        (fun s' b hb => hv s' b (List.mem_cons_of_mem a hb))
        (fun s' b hb => h1 s' b (List.mem_cons_of_mem a hb))
        (fun s' b hb => h2 s' b (List.mem_cons_of_mem a hb)) hP
      calc g (List.foldl f (f s a) L) = v (f s a) := this
        _ = v s := hv s a (List.mem_cons_self a L)
    · obtain ⟨b, hb, hPb⟩ := hex
      have hba : b = a := by
        rcases List.mem_cons.mp hb with h | h
        · exact h
        · exact absurd ⟨b, h, hPb⟩ hP
      subst hba
      have hkeep : g (List.foldl f (f s b) L) = g (f s b) :=
        foldl_keep f g L (f s b)
          (fun s' c hc => h2 s' c (List.mem_cons_of_mem b hc)
            (fun hPc => hP ⟨c, hc, hPc⟩))
      calc g (List.foldl f (f s b) L) = g (f s b) := hkeep
        _ = v s := h1 s b (List.mem_cons_self b L) hPb

/-- If every step of a fold adds a step-invariant increment to the observed
cell g, after the fold g has grown by the sum of the increments. -/
theorem foldl_accum {α σ : Type} {R : Type} [CommRing R]
    (f : σ → α → σ) (g : σ → R) (inc : σ → α → R) :
    ∀ (L : List α) (s : σ),
      (∀ s' a b, a ∈ L → b ∈ L → inc (f s' b) a = inc s' a) →
      (∀ s' a, a ∈ L → g (f s' a) = g s' + inc s' a) →
      g (List.foldl f s L) = g s + (L.map (inc s)).sum := by
  intro L
  induction L with
  | nil => intro s _ _; simp
  | cons a L ih =>
    intro s hinv h
    have hmap : L.map (inc (f s a)) = L.map (inc s) :=
      List.map_congr_left fun b hb =>
        hinv s b a (List.mem_cons_of_mem a hb) (List.mem_cons_self a L)
    have := ih (f s a)
      (fun s' x y hx hy =>
        hinv s' x y (List.mem_cons_of_mem a hx) (List.mem_cons_of_mem a hy))
      (fun s' x hx => h s' x (List.mem_cons_of_mem a hx))
    calc g (List.foldl f (f s a) L)
        = g (f s a) + (L.map (inc (f s a))).sum := this
      _ = (g s + inc s a) + (L.map (inc s)).sum := by
          rw [h s a (List.mem_cons_self a L), hmap]
      _ = g s + ((a :: L).map (inc s)).sum := by
          rw [List.map_cons, List.sum_cons]; ring

theorem lsum_zero {R : Type} [CommRing R] (f : Nat → R) : lsum 0 f = 0 := rfl

theorem lsum_succ {R : Type} [CommRing R] (n : Nat) (f : Nat → R) :
    lsum (n + 1) f = lsum n f + f n := by
  unfold lsum
  rw [List.range_succ, List.map_append, List.sum_append]
  simp

/-- Pointwise-equal summands give equal partial sums. -/
theorem lsum_congr {R : Type} [CommRing R] {n : Nat} {f g : Nat → R}
    (h : ∀ k, k < n → f k = g k) : lsum n f = lsum n g := by
  induction n with
  | zero => rfl
  | succ n ih =>
    rw [lsum_succ, lsum_succ, ih (fun k hk => h k (Nat.lt_succ_of_lt hk)),
      h n (Nat.lt_succ_self n)]

theorem lsum_ite_of_ge {R : Type} [CommRing R] (n k0 : Nat) (t : R) :
    n ≤ k0 → lsum n (fun k => if k = k0 then t else 0) = 0 := by
  induction n with
  | zero => intro _; rfl
  | succ n ih =>
    intro h
    rw [lsum_succ, ih (by omega), if_neg (by omega)]
    ring

/-- Summing an indicator over a range that contains it picks out its value. -/
theorem lsum_ite {R : Type} [CommRing R] (n k0 : Nat) (t : R) :
    k0 < n → lsum n (fun k => if k = k0 then t else 0) = t := by
  induction n with
  | zero => intro h; omega
  | succ n ih =>
    intro h
    rw [lsum_succ]
    by_cases hk : k0 = n
    · subst hk
      rw [lsum_ite_of_ge k0 k0 t (Nat.le_refl k0), if_pos rfl]
      ring
    · rw [ih (by omega), if_neg (fun hh => hk hh.symm)]
      ring

/-- A running-accumulator loop over 0..n-1 equals the initial value plus the
partial sum. -/
theorem foldl_add_eq_lsum {R : Type} [CommRing R] (n : Nat) (f : Nat → R) (c : R) :
    (List.range n).foldl (fun acc k => acc + f k) c = c + lsum n f := by
  induction n generalizing c with
  | zero => simp [lsum_zero]
  | succ n ih =>
    rw [List.range_succ, List.foldl_append, ih, lsum_succ]
    simp [add_assoc]

/-- Characterization of the iteration values of a C stride loop. -/
theorem strideList_mem {start step bound m : Nat} :
    m ∈ strideList start step bound ↔
      m < bound ∧ start ≤ m ∧ (m - start) % step = 0 := by
  unfold strideList
  rw [List.mem_filter, List.mem_range]
  simp [and_assoc]

/-- Every index below the loop bound is visited by the thread whose start
offset is its residue. -/
theorem strideList_self_mem {step bound m : Nat} (hm : m < bound) :
    m ∈ strideList (m % step) step bound := by
  rw [strideList_mem]
  refine ⟨hm, Nat.mod_le m step, ?_⟩
  have h0 := Nat.mod_add_div m step
  have h : m - m % step = step * (m / step) := by omega
  rw [h]
  exact Nat.mul_mod_right step (m / step)

/-- The start offset of a stride loop that visits index m is m's residue. -/
theorem strideList_start_eq {start step bound m : Nat} (hstep : start < step)
    (hm : m ∈ strideList start step bound) : start = m % step := by
  rw [strideList_mem] at hm
  obtain ⟨q, hq⟩ := Nat.dvd_of_mod_eq_zero hm.2.2
  have hm' : m = step * q + start := by omega
  rw [hm', Nat.mul_add_mod, Nat.mod_eq_of_lt hstep]

theorem mem_pairs {ny nx : Nat} {t : Nat × Nat} :
    (t ∈ (List.range ny).flatMap fun a => (List.range nx).map fun b => (a, b)) ↔
      t.1 < ny ∧ t.2 < nx := by
  rw [List.mem_flatMap]
  constructor
  · rintro ⟨a, ha, ht⟩
    rw [List.mem_map] at ht
    obtain ⟨b, hb, rfl⟩ := ht
    exact ⟨List.mem_range.mp ha, List.mem_range.mp hb⟩
  · rintro ⟨h1, h2⟩
    exact ⟨t.1, List.mem_range.mpr h1,
      List.mem_map.mpr ⟨t.2, List.mem_range.mpr h2, by simp⟩⟩

theorem threads_mem {c : Cfg} {t : Nat × Nat} :
    t ∈ threads c ↔ t.1 < c.block_size_y ∧ t.2 < c.block_size_x := mem_pairs

theorem blocks_mem {gy gx : Nat} {t : Nat × Nat} :
    t ∈ blocks gy gx ↔ t.1 < gy ∧ t.2 < gx := mem_pairs

/-- Uniqueness of quotient and remainder in a mixed-radix decomposition. -/
theorem radix_inj {q r q' r' B : Nat} (hr : r < B) (hr' : r' < B)
    (h : q * B + r = q' * B + r') : q = q' ∧ r = r' := by
  rcases Nat.lt_trichotomy q q' with h1 | h1 | h1
  · exfalso
    have : q * B + r < q' * B + r' := by
      calc q * B + r < q * B + B := by omega
        _ = (q + 1) * B := by ring
        _ ≤ q' * B := Nat.mul_le_mul_right B h1
        _ ≤ q' * B + r' := Nat.le_add_right _ _
    omega
  · subst h1; omega
  · exfalso
    have : q' * B + r' < q * B + r := by
      calc q' * B + r' < q' * B + B := by omega
        _ = (q' + 1) * B := by ring
        _ ≤ q * B := Nat.mul_le_mul_right B h1
        _ ≤ q * B + r := Nat.le_add_right _ _
    omega

/-- A thread-plus-register offset stays inside the per-block output extent. -/
theorem sub_extent_lt {ty bsy yi tsy : Nat} (hty : ty < bsy) (hyi : yi < tsy) :
    ty + yi * bsy < bsy * tsy := by
  calc ty + yi * bsy < bsy + yi * bsy := by omega
    _ = (yi + 1) * bsy := by ring
    _ ≤ tsy * bsy := Nat.mul_le_mul_right bsy (by omega)
    _ = bsy * tsy := Nat.mul_comm tsy bsy

/-- Unfolding of the staging-write test. -/
theorem isStaged_iff {c : Cfg} {mode : Bool} {a b i j : Nat} :
    isStaged c mode a b i j = true ↔
      i < i_end c ∧ j < j_end c ∧
        (mode = true ∨ (blockY c a + i < input_height c ∧ blockX c b + j < input_width c)) := by
  unfold isStaged
  simp [and_assoc]

theorem stageThread_output {R : Type} [CommRing R] (c : Cfg) (mode : Bool)
    (input : Nat → R) (a b ty tx : Nat) (s : KState R) :
    (stageThread c mode input a b ty tx s).output = s.output := by
  unfold stageThread
  refine foldl_keep _ (fun st => st.output) _ s fun s' i _ => ?_
  refine foldl_keep _ (fun st => st.output) _ s' fun s'' j _ => ?_
  split_ifs <;> rfl

theorem stageThread_sum {R : Type} [CommRing R] (c : Cfg) (mode : Bool)
    (input : Nat → R) (a b ty tx : Nat) (s : KState R) :
    (stageThread c mode input a b ty tx s).sum = s.sum := by
  unfold stageThread
  refine foldl_keep _ (fun st => st.sum) _ s fun s' i _ => ?_
  refine foldl_keep _ (fun st => st.sum) _ s' fun s'' j _ => ?_
  split_ifs <;> rfl

theorem stageBlock_output {R : Type} [CommRing R] (c : Cfg) (mode : Bool)
    (input : Nat → R) (a b : Nat) (s : KState R) :
    (stageBlock c mode input a b s).output = s.output := by
  unfold stageBlock
  exact foldl_keep _ (fun st => st.output) _ s fun s' (t : Nat × Nat) _ =>
    stageThread_output c mode input a b t.1 t.2 s'

theorem stageBlock_sum {R : Type} [CommRing R] (c : Cfg) (mode : Bool)
    (input : Nat → R) (a b : Nat) (s : KState R) :
    (stageBlock c mode input a b s).sum = s.sum := by
  unfold stageBlock
  exact foldl_keep _ (fun st => st.sum) _ s fun s' (t : Nat × Nat) _ =>
    stageThread_sum c mode input a b t.1 t.2 s'

theorem shStore_sh {R : Type} (i j : Nat) (v : R) (s : KState R) (a b : Nat) :
    (shStore i j v s).sh a b = if a = i ∧ b = j then v else s.sh a b := rfl

theorem sumStore_sum {R : Type} (yi xi : Nat) (v : R) (s : KState R) (a b : Nat) :
    (sumStore yi xi v s).sum a b = if a = yi ∧ b = xi then v else s.sum a b := rfl

theorem outStore_output {R : Type} (k : Nat) (v : R) (s : KState R) (a : Nat) :
    (outStore k v s).output a = if a = k then v else s.output a := rfl

/-- A staging thread stores the input element into every scratch position
its strided loops visit (subject to the boundary guard). -/
theorem stageThread_sh_write {R : Type} [CommRing R] (c : Cfg) (mode : Bool)
    (input : Nat → R) (a b ty tx i j : Nat) (s : KState R)
    (hi : i ∈ strideList ty c.block_size_y (i_end c))
    (hj : j ∈ strideList tx c.block_size_x (j_end c))
    (hg : mode = true ∨
      (blockY c a + i < input_height c ∧ blockX c b + j < input_width c)) :
    (stageThread c mode input a b ty tx s).sh i j =
      input ((blockY c a + i) * input_width c + (blockX c b + j)) := by
  unfold stageThread
  refine foldl_write _ (fun st => st.sh i j)
    (fun _ => input ((blockY c a + i) * input_width c + (blockX c b + j)))
    (fun i' => i' = i) _ s (fun _ _ _ => rfl) ?_ ?_ ⟨i, hi, rfl⟩
  · rintro s' i' _ rfl
    refine foldl_write _ (fun st => st.sh i' j)
      (fun _ => input ((blockY c a + i') * input_width c + (blockX c b + j)))
      (fun j' => j' = j) _ s' (fun _ _ _ => rfl) ?_ ?_ ⟨j, hj, rfl⟩
    · rintro s'' j' _ rfl
      by_cases hm : mode = true
      · rw [if_pos hm]
        exact if_pos ⟨rfl, rfl⟩
      · rw [if_neg hm]
        rcases hg with hm' | hgd
        · exact absurd hm' hm
        · rw [if_pos hgd]
          exact if_pos ⟨rfl, rfl⟩
    · rintro s'' j' _ hne
      have hcond : ¬ (i' = i' ∧ j = j') := fun hh => hne hh.2.symm
      split_ifs with h1 h2
      · exact if_neg hcond
      · exact if_neg hcond
      · rfl
  · rintro s' i' _ hne
    refine foldl_keep _ (fun st => st.sh i j) _ s' fun s'' j' _ => ?_
    have hcond : ¬ (i = i' ∧ j = j') := fun hh => hne hh.1.symm
    split_ifs with h1 h2
    · exact if_neg hcond
    · exact if_neg hcond
    · rfl


/-- A staging thread leaves untouched every scratch position its loops do
not visit, and every position whose guarded load is skipped. -/
theorem stageThread_sh_skip {R : Type} [CommRing R] (c : Cfg) (mode : Bool)
    (input : Nat → R) (a b ty tx i j : Nat) (s : KState R)
    (h : ¬ (i ∈ strideList ty c.block_size_y (i_end c) ∧
            j ∈ strideList tx c.block_size_x (j_end c) ∧
            (mode = true ∨
              (blockY c a + i < input_height c ∧ blockX c b + j < input_width c)))) :
    (stageThread c mode input a b ty tx s).sh i j = s.sh i j := by
  unfold stageThread
  refine foldl_keep _ (fun st => st.sh i j) _ s fun s' i' hi' => ?_
  refine foldl_keep _ (fun st => st.sh i j) _ s' fun s'' j' hj' => ?_
  by_cases hii : i = i'
  · subst hii
    by_cases hjj : j = j'
    · subst hjj
      have hng : ¬ (mode = true ∨
          (blockY c a + i < input_height c ∧ blockX c b + j < input_width c)) :=
        fun hgd => h ⟨hi', hj', hgd⟩
      rw [if_neg (fun hm => hng (Or.inl hm)),
        if_neg (fun hgd => hng (Or.inr hgd))]
    · have hcond : ¬ (i = i ∧ j = j') := fun hh => hjj hh.2
      split_ifs <;> first | exact if_neg hcond | rfl
  · have hcond : ¬ (i = i' ∧ j = j') := fun hh => hii hh.1
    split_ifs <;> first | exact if_neg hcond | rfl

/-- After the cooperative staging phase the shared tile holds exactly the
staged input elements; skipped positions keep the prior contents. -/
theorem stageBlock_sh {R : Type} [CommRing R] (c : Cfg) (mode : Bool)
    (input : Nat → R) (a b : Nat) (s : KState R) (i j : Nat)
    (hbsy : 0 < c.block_size_y) (hbsx : 0 < c.block_size_x) :
    (stageBlock c mode input a b s).sh i j =
      if isStaged c mode a b i j then
        input ((blockY c a + i) * input_width c + (blockX c b + j))
      else s.sh i j := by
  unfold stageBlock
  by_cases hst : isStaged c mode a b i j
  · rw [if_pos hst]
    rw [isStaged_iff] at hst
    obtain ⟨hie, hje, hgd⟩ := hst
    refine foldl_write _ (fun st => st.sh i j)
      (fun _ => input ((blockY c a + i) * input_width c + (blockX c b + j)))
      (fun t => t = (i % c.block_size_y, j % c.block_size_x)) _ s
      (fun _ _ _ => rfl) ?_ ?_
      ⟨(i % c.block_size_y, j % c.block_size_x),
        threads_mem.mpr ⟨Nat.mod_lt i hbsy, Nat.mod_lt j hbsx⟩, rfl⟩
    · rintro s' t _ rfl
      exact stageThread_sh_write c mode input a b _ _ i j s'
        (strideList_self_mem hie) (strideList_self_mem hje) hgd
    · rintro s' t ht hne
      refine stageThread_sh_skip c mode input a b t.1 t.2 i j s' ?_
      rintro ⟨hi, hj, _⟩
      refine hne ?_
      have h1 : t.1 = i % c.block_size_y :=
        strideList_start_eq (threads_mem.mp ht).1 hi
      have h2 : t.2 = j % c.block_size_x :=
        strideList_start_eq (threads_mem.mp ht).2 hj
      exact Prod.ext h1 h2
  · rw [if_neg hst]
    refine foldl_keep _ (fun st => st.sh i j) _ s fun s' t _ => ?_
    refine stageThread_sh_skip c mode input a b t.1 t.2 i j s' ?_
    rintro ⟨hi, hj, hgd⟩
    rw [strideList_mem] at hi hj
    exact hst (isStaged_iff.mpr ⟨hi.1, hj.1, hgd⟩)

/-- Functional form of the staging characterization: starting from
uninitialized scratch contents u, the post-barrier tile is stagedSh. -/
theorem stageBlock_sh_eq {R : Type} [CommRing R] (c : Cfg) (mode : Bool)
    (input : Nat → R) (u : Nat → Nat → R) (a b : Nat) (o : Nat → R)
    (r : Nat → Nat → R)
    (hbsy : 0 < c.block_size_y) (hbsx : 0 < c.block_size_x) :
    (stageBlock c mode input a b ⟨o, u, r⟩).sh = stagedSh c mode input u a b := by
  funext i j
  exact stageBlock_sh c mode input a b ⟨o, u, r⟩ i j hbsy hbsx

theorem initAcc_output {R : Type} [CommRing R] (c : Cfg) (s : KState R) :
    (initAcc c s).output = s.output := by
  unfold initAcc
  refine foldl_keep _ (fun st => st.output) _ s fun s' yi _ => ?_
  refine foldl_keep (fun (s : KState R) xi => sumStore yi xi 0 s)
    (fun st => st.output) _ s' fun s'' xi _ => ?_
  rfl

theorem initAcc_sh {R : Type} [CommRing R] (c : Cfg) (s : KState R) :
    (initAcc c s).sh = s.sh := by
  unfold initAcc
  refine foldl_keep _ (fun st => st.sh) _ s fun s' yi _ => ?_
  refine foldl_keep (fun (s : KState R) xi => sumStore yi xi 0 s)
    (fun st => st.sh) _ s' fun s'' xi _ => ?_
  rfl

/-- The zeroing loop sets every register in range to 0. -/
theorem initAcc_sum {R : Type} [CommRing R] (c : Cfg) (s : KState R) (yi xi : Nat)
    (hyi : yi < c.tile_size_y) (hxi : xi < c.tile_size_x) :
    (initAcc c s).sum yi xi = 0 := by
  unfold initAcc
  refine foldl_write
    (fun (s : KState R) yi =>
      (List.range c.tile_size_x).foldl (fun s xi => sumStore yi xi 0 s) s)
    (fun st => st.sum yi xi) (fun _ => 0) (fun yi' => yi' = yi) _ s
    (fun _ _ _ => rfl) ?_ ?_ ⟨yi, List.mem_range.mpr hyi, rfl⟩
  · rintro s' yi' _ rfl
    refine foldl_write (fun (s : KState R) xi => sumStore yi' xi 0 s)
      (fun st => st.sum yi' xi) (fun _ => 0) (fun xi' => xi' = xi) _ s'
      (fun _ _ _ => rfl) ?_ ?_ ⟨xi, List.mem_range.mpr hxi, rfl⟩
    · rintro s'' xi' _ rfl
      exact if_pos ⟨rfl, rfl⟩
    · rintro s'' xi' _ hne
      exact if_neg fun hh => hne hh.2.symm
  · rintro s' yi' _ hne
    refine foldl_keep _ (fun st => st.sum yi xi) _ s' fun s'' xi' _ => ?_
    exact if_neg fun hh => hne hh.1.symm

theorem computeInnerX_sh {R : Type} [CommRing R] (c : Cfg) (d_filter : Nat → R)
    (ty tx i j yi : Nat) (s : KState R) :
    (computeInnerX c d_filter ty tx i j yi s).sh = s.sh := by
  unfold computeInnerX
  refine foldl_keep _ (fun st => st.sh) _ s fun s' xi _ => ?_
  rfl

theorem computeInnerX_output {R : Type} [CommRing R] (c : Cfg) (d_filter : Nat → R)
    (ty tx i j yi : Nat) (s : KState R) :
    (computeInnerX c d_filter ty tx i j yi s).output = s.output := by
  unfold computeInnerX
  refine foldl_keep _ (fun st => st.output) _ s fun s' xi _ => ?_
  rfl

/-- One filter coefficient adds its weighted shared-tile element to the
register (yi,xi). -/
theorem computeInnerX_sum_self {R : Type} [CommRing R] (c : Cfg) (d_filter : Nat → R)
    (ty tx i j yi xi : Nat) (s : KState R) (hxi : xi < c.tile_size_x) :
    (computeInnerX c d_filter ty tx i j yi s).sum yi xi =
      s.sum yi xi +
        s.sh (ty + yi * c.block_size_y + i) (tx + xi * c.block_size_x + j) *
          d_filter (i * c.filter_width + j) := by
  unfold computeInnerX
  have h := foldl_accum (R := R)
    (fun (s : KState R) xi' =>
      sumStore yi xi'
        (s.sum yi xi' +
          s.sh (ty + yi * c.block_size_y + i) (tx + xi' * c.block_size_x + j) *
            d_filter (i * c.filter_width + j)) s)
    (fun st => st.sum yi xi)
    (fun st xi' =>
      if xi' = xi then
        st.sh (ty + yi * c.block_size_y + i) (tx + xi * c.block_size_x + j) *
          d_filter (i * c.filter_width + j)
      else 0)
    (List.range c.tile_size_x) s (fun _ _ _ _ _ => rfl) ?_
  · beta_reduce at h
    rw [h]
    have h2 : ((List.range c.tile_size_x).map fun xi' =>
        if xi' = xi then
          s.sh (ty + yi * c.block_size_y + i) (tx + xi * c.block_size_x + j) *
            d_filter (i * c.filter_width + j)
        else 0).sum =
        s.sh (ty + yi * c.block_size_y + i) (tx + xi * c.block_size_x + j) *
          d_filter (i * c.filter_width + j) :=
      lsum_ite c.tile_size_x xi _ hxi
    rw [h2]
  · intro s' xi' _
    beta_reduce
    by_cases hx : xi' = xi
    · subst hx
      rw [if_pos rfl]
      exact if_pos ⟨rfl, rfl⟩
    · rw [if_neg hx, add_zero]
      exact if_neg fun hh => hx hh.2.symm

/-- The inner accumulation loop for row yi leaves other register rows
unchanged. -/
theorem computeInnerX_sum_other {R : Type} [CommRing R] (c : Cfg) (d_filter : Nat → R)
    (ty tx i j yi a b : Nat) (s : KState R) (hne : a ≠ yi) :
    (computeInnerX c d_filter ty tx i j yi s).sum a b = s.sum a b := by
  unfold computeInnerX
  refine foldl_keep _ (fun st => st.sum a b) _ s fun s' xi' _ => ?_
  exact if_neg fun hh => hne hh.1

theorem computeInnerY_sh {R : Type} [CommRing R] (c : Cfg) (d_filter : Nat → R)
    (ty tx i j : Nat) (s : KState R) :
    (computeInnerY c d_filter ty tx i j s).sh = s.sh := by
  unfold computeInnerY
  exact foldl_keep _ (fun st => st.sh) _ s fun s' yi _ =>
    computeInnerX_sh c d_filter ty tx i j yi s'

theorem computeInnerY_output {R : Type} [CommRing R] (c : Cfg) (d_filter : Nat → R)
    (ty tx i j : Nat) (s : KState R) :
    (computeInnerY c d_filter ty tx i j s).output = s.output := by
  unfold computeInnerY
  exact foldl_keep _ (fun st => st.output) _ s fun s' yi _ =>
    computeInnerX_output c d_filter ty tx i j yi s'

/-- One filter coefficient adds its weighted shared-tile element to every
register in range. -/
theorem computeInnerY_sum {R : Type} [CommRing R] (c : Cfg) (d_filter : Nat → R)
    (ty tx i j yi xi : Nat) (s : KState R)
    (hyi : yi < c.tile_size_y) (hxi : xi < c.tile_size_x) :
    (computeInnerY c d_filter ty tx i j s).sum yi xi =
      s.sum yi xi +
        s.sh (ty + yi * c.block_size_y + i) (tx + xi * c.block_size_x + j) *
          d_filter (i * c.filter_width + j) := by
  unfold computeInnerY
  have h := foldl_accum (R := R)
    (fun (s : KState R) yi' => computeInnerX c d_filter ty tx i j yi' s)
    (fun st => st.sum yi xi)
    (fun st yi' =>
      if yi' = yi then
        st.sh (ty + yi * c.block_size_y + i) (tx + xi * c.block_size_x + j) *
          d_filter (i * c.filter_width + j)
      else 0)
    (List.range c.tile_size_y) s ?_ ?_
  · beta_reduce at h
    rw [h]
    exact congrArg (fun z => s.sum yi xi + z) (lsum_ite c.tile_size_y yi _ hyi)
  · intro s' a b _ _
    beta_reduce
    simp only [computeInnerX_sh]
  · intro s' yi' _
    beta_reduce
    by_cases hy : yi' = yi
    · subst hy
      rw [if_pos rfl]
      exact computeInnerX_sum_self c d_filter ty tx i j yi' xi s' hxi
    · rw [if_neg hy, add_zero]
      exact computeInnerX_sum_other c d_filter ty tx i j yi' yi xi s'
        fun hh => hy hh.symm

theorem computeThread_sh {R : Type} [CommRing R] (c : Cfg) (d_filter : Nat → R)
    (ty tx : Nat) (s : KState R) :
    (computeThread c d_filter ty tx s).sh = s.sh := by
  unfold computeThread
  refine foldl_keep _ (fun st => st.sh) _ s fun s' i _ => ?_
  exact foldl_keep _ (fun st => st.sh) _ s' fun s'' j _ =>
    computeInnerY_sh c d_filter ty tx i j s''

theorem computeThread_output {R : Type} [CommRing R] (c : Cfg) (d_filter : Nat → R)
    (ty tx : Nat) (s : KState R) :
    (computeThread c d_filter ty tx s).output = s.output := by
  unfold computeThread
  refine foldl_keep _ (fun st => st.output) _ s fun s' i _ => ?_
  exact foldl_keep _ (fun st => st.output) _ s' fun s'' j _ =>
    computeInnerY_output c d_filter ty tx i j s''

/-- The compute phase adds to each in-range register the full filter sweep
over the shared tile. -/
theorem computeThread_sum {R : Type} [CommRing R] (c : Cfg) (d_filter : Nat → R)
    (ty tx yi xi : Nat) (s : KState R)
    (hyi : yi < c.tile_size_y) (hxi : xi < c.tile_size_x) :
    (computeThread c d_filter ty tx s).sum yi xi =
      s.sum yi xi + tileVal c d_filter s.sh ty tx yi xi := by
  unfold computeThread
  have hrow : ∀ (st : KState R) (i : Nat),
      ((List.range c.filter_width).foldl
        (fun s j => computeInnerY c d_filter ty tx i j s) st).sh = st.sh :=
    fun st i => foldl_keep _ (fun s2 => s2.sh) _ st fun s2 j _ =>
      computeInnerY_sh c d_filter ty tx i j s2
  have h := foldl_accum (R := R)
    (fun (s : KState R) i =>
      (List.range c.filter_width).foldl
        (fun s j => computeInnerY c d_filter ty tx i j s) s)
    (fun st => st.sum yi xi)
    (fun st i => lsum c.filter_width fun j =>
      st.sh (ty + yi * c.block_size_y + i) (tx + xi * c.block_size_x + j) *
        d_filter (i * c.filter_width + j))
    (List.range c.filter_height) s ?_ ?_
  · beta_reduce at h
    rw [h]
    rfl
  · intro s' a b _ _
    beta_reduce
    simp only [hrow]
  · intro s' i _
    beta_reduce
    have h2 := foldl_accum (R := R)
      (fun (s : KState R) j => computeInnerY c d_filter ty tx i j s)
      (fun st => st.sum yi xi)
      (fun st j =>
        st.sh (ty + yi * c.block_size_y + i) (tx + xi * c.block_size_x + j) *
          d_filter (i * c.filter_width + j))
      (List.range c.filter_width) s' ?_ ?_
    · beta_reduce at h2
      rw [h2]
      rfl
    · intro s2 a b _ _
      beta_reduce
      simp only [computeInnerY_sh]
    · intro s2 j _
      exact computeInnerY_sum c d_filter ty tx i j yi xi s2 hyi hxi

/-- The store phase never touches the registers. -/
theorem storeThread_sum {R : Type} [CommRing R] (c : Cfg) (mode : Bool)
    (a b ty tx : Nat) (s : KState R) :
    (storeThread c mode a b ty tx s).sum = s.sum := by
  unfold storeThread
  refine foldl_keep _ (fun st => st.sum) _ s fun s' yi _ => ?_
  refine foldl_keep _ (fun st => st.sum) _ s' fun s'' xi _ => ?_
  split_ifs <;> rfl

/-- If register (yi,xi) is the unique in-range register of this thread whose
guarded store targets the given output index, the store phase writes its
accumulator there. -/
theorem storeThread_out_write {R : Type} [CommRing R] (c : Cfg) (mode : Bool)
    (a b ty tx yi xi : Nat) (s : KState R)
    (hyi : yi < c.tile_size_y) (hxi : xi < c.tile_size_x)
    (hfire : fire c mode (outY c a ty yi) (outX c b tx xi))
    (huniq : ∀ yi' xi', yi' < c.tile_size_y → xi' < c.tile_size_x →
      fire c mode (outY c a ty yi') (outX c b tx xi') →
      outIdx c (outY c a ty yi') (outX c b tx xi') =
        outIdx c (outY c a ty yi) (outX c b tx xi) →
      yi' = yi ∧ xi' = xi) :
    (storeThread c mode a b ty tx s).output
        (outIdx c (outY c a ty yi) (outX c b tx xi)) = s.sum yi xi := by
  unfold storeThread
  refine foldl_write _
    (fun st => st.output (outIdx c (outY c a ty yi) (outX c b tx xi)))
    (fun st => st.sum yi xi) (fun yi' => yi' = yi) _ s ?_ ?_ ?_
    ⟨yi, List.mem_range.mpr hyi, rfl⟩
  · intro s' yi' _
    beta_reduce
    refine foldl_keep _ (fun st => st.sum yi xi) _ s' fun s'' xi' _ => ?_
    split_ifs <;> rfl
  · rintro s' yi' _ rfl
    beta_reduce
    refine foldl_write _
      (fun st => st.output (outIdx c (outY c a ty yi') (outX c b tx xi)))
      (fun st => st.sum yi' xi) (fun xi' => xi' = xi) _ s' ?_ ?_ ?_
      ⟨xi, List.mem_range.mpr hxi, rfl⟩
    · intro s'' xi' _
      beta_reduce
      split_ifs <;> rfl
    · rintro s'' xi' _ rfl
      beta_reduce
      by_cases hm : mode = true
      · rw [if_pos hm]
        exact if_pos rfl
      · rw [if_neg hm]
        rcases hfire with hm' | hbnd
        · exact absurd hm' hm
        · rw [if_pos hbnd]
          exact if_pos rfl
    · rintro s'' xi' hmem hne
      beta_reduce
      have hxi' : xi' < c.tile_size_x := List.mem_range.mp hmem
      split_ifs with h1 h2
      · refine if_neg fun hk => ?_
        exact hne (huniq yi' xi' hyi hxi' (Or.inl h1) hk.symm).2
      · refine if_neg fun hk => ?_
        exact hne (huniq yi' xi' hyi hxi' (Or.inr h2) hk.symm).2
      · rfl
  · rintro s' yi' hmem hne
    beta_reduce
    have hyi' : yi' < c.tile_size_y := List.mem_range.mp hmem
    refine foldl_keep _
      (fun st => st.output (outIdx c (outY c a ty yi) (outX c b tx xi))) _ s'
      fun s'' xi' hmem' => ?_
    have hxi' : xi' < c.tile_size_x := List.mem_range.mp hmem'
    beta_reduce
    split_ifs with h1 h2
    · refine if_neg fun hk => ?_
      exact hne (huniq yi' xi' hyi' hxi' (Or.inl h1) hk.symm).1
    · refine if_neg fun hk => ?_
      exact hne (huniq yi' xi' hyi' hxi' (Or.inr h2) hk.symm).1
    · rfl

/-- If no in-range register of this thread has a firing store to index k,
the store phase leaves output position k unchanged. -/
theorem storeThread_out_skip {R : Type} [CommRing R] (c : Cfg) (mode : Bool)
    (a b ty tx k : Nat) (s : KState R)
    (hno : ∀ yi xi, yi < c.tile_size_y → xi < c.tile_size_x →
      fire c mode (outY c a ty yi) (outX c b tx xi) →
      outIdx c (outY c a ty yi) (outX c b tx xi) ≠ k) :
    (storeThread c mode a b ty tx s).output k = s.output k := by
  unfold storeThread
  refine foldl_keep _ (fun st => st.output k) _ s fun s' yi hmem => ?_
  have hyi : yi < c.tile_size_y := List.mem_range.mp hmem
  beta_reduce
  refine foldl_keep _ (fun st => st.output k) _ s' fun s'' xi hmem' => ?_
  have hxi : xi < c.tile_size_x := List.mem_range.mp hmem'
  beta_reduce
  split_ifs with h1 h2
  · exact if_neg fun hk => hno yi xi hyi hxi (Or.inl h1) hk.symm
  · exact if_neg fun hk => hno yi xi hyi hxi (Or.inr h2) hk.symm
  · rfl

/-- A thread whose register (yi,xi) is the unique firing writer of the
given index delivers the compute-phase filter sweep there. -/
theorem threadOut_write {R : Type} [CommRing R] (c : Cfg) (mode : Bool)
    (d_filter : Nat → R) (a b ty tx yi xi : Nat) (S : Nat → Nat → R)
    (r0 : Nat → Nat → R) (o : Nat → R)
    (hyi : yi < c.tile_size_y) (hxi : xi < c.tile_size_x)
    (hfire : fire c mode (outY c a ty yi) (outX c b tx xi))
    (huniq : ∀ yi' xi', yi' < c.tile_size_y → xi' < c.tile_size_x →
      fire c mode (outY c a ty yi') (outX c b tx xi') →
      outIdx c (outY c a ty yi') (outX c b tx xi') =
        outIdx c (outY c a ty yi) (outX c b tx xi) →
      yi' = yi ∧ xi' = xi) :
    threadOut c mode d_filter a b ty tx S r0 o
        (outIdx c (outY c a ty yi) (outX c b tx xi)) =
      tileVal c d_filter S ty tx yi xi := by
  unfold threadOut
  rw [storeThread_out_write c mode a b ty tx yi xi _ hyi hxi hfire huniq]
  rw [computeThread_sum c d_filter ty tx yi xi _ hyi hxi]
  rw [initAcc_sum c _ yi xi hyi hxi, initAcc_sh]
  show 0 + tileVal c d_filter S ty tx yi xi = _
  rw [zero_add]

/-- A thread with no firing store to index k leaves it unchanged. -/
theorem threadOut_skip {R : Type} [CommRing R] (c : Cfg) (mode : Bool)
    (d_filter : Nat → R) (a b ty tx k : Nat) (S : Nat → Nat → R)
    (r0 : Nat → Nat → R) (o : Nat → R)
    (hno : ∀ yi xi, yi < c.tile_size_y → xi < c.tile_size_x →
      fire c mode (outY c a ty yi) (outX c b tx xi) →
      outIdx c (outY c a ty yi) (outX c b tx xi) ≠ k) :
    threadOut c mode d_filter a b ty tx S r0 o k = o k := by
  unfold threadOut
  rw [storeThread_out_skip c mode a b ty tx k _ hno]
  rw [computeThread_output, initAcc_output]

/-- Halo sufficiency for the tiled kernel: every shared-memory position the
compute phase reads for a register whose store fires is inside the staged
extent, and (in boundary-safe mode) its global coordinates are in range, so
the staging phase wrote it. -/
theorem isStaged_of_read (c : Cfg) (mode : Bool) (a b ty tx yi xi i j : Nat)
    (hty : ty < c.block_size_y) (htx : tx < c.block_size_x)
    (hyi : yi < c.tile_size_y) (hxi : xi < c.tile_size_x)
    (hi : i < c.filter_height) (hj : j < c.filter_width)
    (hblk : mode = true → (a + 1) * (c.block_size_y * c.tile_size_y) ≤ c.image_height ∧
      (b + 1) * (c.block_size_x * c.tile_size_x) ≤ c.image_width)
    (hmask : mode = false → outY c a ty yi < c.image_height ∧
      outX c b tx xi < c.image_width) :
    isStaged c mode a b (ty + yi * c.block_size_y + i) (tx + xi * c.block_size_x + j)
      = true := by
  rw [isStaged_iff]
  have hrow : ty + yi * c.block_size_y < c.block_size_y * c.tile_size_y :=
    sub_extent_lt hty hyi
  have hcol : tx + xi * c.block_size_x < c.block_size_x * c.tile_size_x :=
    sub_extent_lt htx hxi
  cases mode with
  | true =>
    obtain ⟨hih, hiw⟩ := hblk rfl
    have h1 : c.block_size_y * c.tile_size_y ≤ (a + 1) * (c.block_size_y * c.tile_size_y) :=
      Nat.le_mul_of_pos_left _ (Nat.succ_pos a)
    have h2 : c.block_size_x * c.tile_size_x ≤ (b + 1) * (c.block_size_x * c.tile_size_x) :=
      Nat.le_mul_of_pos_left _ (Nat.succ_pos b)
    refine ⟨?_, ?_, Or.inl rfl⟩
    · simp only [i_end, input_height, border_height]
      omega
    · simp only [j_end, input_width, border_width]
      omega
  | false =>
    obtain ⟨hy, hx⟩ := hmask rfl
    simp only [outY, outX, blockY, blockX] at hy hx
    refine ⟨?_, ?_, Or.inr ⟨?_, ?_⟩⟩
    · simp only [i_end, input_height, border_height]
      omega
    · simp only [j_end, input_width, border_width]
      omega
    · simp only [blockY, input_height, border_height]
      omega
    · simp only [blockX, input_width, border_width]
      omega

/-- Over the staged tile, the register value computed by the filter sweep is
exactly the specified weighted sum of input elements at the register's
global output coordinates. -/
theorem tileVal_staged {R : Type} [CommRing R] (c : Cfg) (mode : Bool)
    (input d_filter : Nat → R) (u : Nat → Nat → R) (a b ty tx yi xi : Nat)
    (hty : ty < c.block_size_y) (htx : tx < c.block_size_x)
    (hyi : yi < c.tile_size_y) (hxi : xi < c.tile_size_x)
    (hblk : mode = true → (a + 1) * (c.block_size_y * c.tile_size_y) ≤ c.image_height ∧
      (b + 1) * (c.block_size_x * c.tile_size_x) ≤ c.image_width)
    (hmask : mode = false → outY c a ty yi < c.image_height ∧
      outX c b tx xi < c.image_width) :
    tileVal c d_filter (stagedSh c mode input u a b) ty tx yi xi =
      pureVal c input d_filter (outY c a ty yi) (outX c b tx xi) := by
  unfold tileVal pureVal
  refine lsum_congr fun i hi => lsum_congr fun j hj => ?_
  simp only [stagedSh]
  rw [if_pos (isStaged_of_read c mode a b ty tx yi xi i j hty htx hyi hxi hi hj hblk hmask)]
  have hidy : blockY c a + (ty + yi * c.block_size_y + i) = outY c a ty yi + i := by
    simp only [outY, blockY]
    ring
  have hidx : blockX c b + (tx + xi * c.block_size_x + j) = outX c b tx xi + j := by
    simp only [outX, blockX]
    ring
  rw [hidy, hidx]

/-- Two firing stores of the tiled kernel targeting the same output index
come from the same block, thread and register offset. -/
theorem writer_unique (c : Cfg) (mode : Bool) (gy gx : Nat)
    (hgrid : mode = true →
      gy * (c.block_size_y * c.tile_size_y) ≤ c.image_height ∧
      gx * (c.block_size_x * c.tile_size_x) ≤ c.image_width)
    {a b ty tx yi xi a' b' ty' tx' yi' xi' : Nat}
    (ha : a < gy) (hb : b < gx)
    (hty : ty < c.block_size_y) (htx : tx < c.block_size_x)
    (hyi : yi < c.tile_size_y) (hxi : xi < c.tile_size_x)
    (ha' : a' < gy) (hb' : b' < gx)
    (hty' : ty' < c.block_size_y) (htx' : tx' < c.block_size_x)
    (hyi' : yi' < c.tile_size_y) (hxi' : xi' < c.tile_size_x)
    (hf : fire c mode (outY c a ty yi) (outX c b tx xi))
    (hf' : fire c mode (outY c a' ty' yi') (outX c b' tx' xi'))
    (heq : outIdx c (outY c a' ty' yi') (outX c b' tx' xi') =
      outIdx c (outY c a ty yi) (outX c b tx xi)) :
    a' = a ∧ b' = b ∧ ty' = ty ∧ tx' = tx ∧ yi' = yi ∧ xi' = xi := by
  have hcol : tx + xi * c.block_size_x < c.block_size_x * c.tile_size_x :=
    sub_extent_lt htx hxi
  have hcol' : tx' + xi' * c.block_size_x < c.block_size_x * c.tile_size_x :=
    sub_extent_lt htx' hxi'
  have hxlt : outX c b tx xi < c.image_width := by
    rcases hf with hm | hbnd
    · have hiw := (hgrid hm).2
      have h2 : (b + 1) * (c.block_size_x * c.tile_size_x) ≤
          gx * (c.block_size_x * c.tile_size_x) :=
        Nat.mul_le_mul_right _ (Nat.succ_le_of_lt hb)
      have h3 : (b + 1) * (c.block_size_x * c.tile_size_x) =
          b * (c.block_size_x * c.tile_size_x) + c.block_size_x * c.tile_size_x := by
        ring
      simp only [outX, blockX]
      omega
    · exact hbnd.2
  have hxlt' : outX c b' tx' xi' < c.image_width := by
    rcases hf' with hm | hbnd
    · have hiw := (hgrid hm).2
      have h2 : (b' + 1) * (c.block_size_x * c.tile_size_x) ≤
          gx * (c.block_size_x * c.tile_size_x) :=
        Nat.mul_le_mul_right _ (Nat.succ_le_of_lt hb')
      have h3 : (b' + 1) * (c.block_size_x * c.tile_size_x) =
          b' * (c.block_size_x * c.tile_size_x) + c.block_size_x * c.tile_size_x := by
        ring
      simp only [outX, blockX]
      omega
    · exact hbnd.2
  unfold outIdx at heq
  obtain ⟨hyeq, hxeq⟩ := radix_inj hxlt' hxlt heq
  have hry : ty + yi * c.block_size_y < c.block_size_y * c.tile_size_y :=
    sub_extent_lt hty hyi
  have hry' : ty' + yi' * c.block_size_y < c.block_size_y * c.tile_size_y :=
    sub_extent_lt hty' hyi'
  have hyeq2 : a' * (c.block_size_y * c.tile_size_y) + (ty' + yi' * c.block_size_y) =
      a * (c.block_size_y * c.tile_size_y) + (ty + yi * c.block_size_y) := by
    simp only [outY, blockY] at hyeq
    omega
  obtain ⟨haa, hinnery⟩ := radix_inj hry' hry hyeq2
  have hinnery2 : yi' * c.block_size_y + ty' = yi * c.block_size_y + ty := by omega
  obtain ⟨hyy, htt⟩ := radix_inj hty' hty hinnery2
  have hxeq2 : b' * (c.block_size_x * c.tile_size_x) + (tx' + xi' * c.block_size_x) =
      b * (c.block_size_x * c.tile_size_x) + (tx + xi * c.block_size_x) := by
    simp only [outX, blockX] at hxeq
    omega
  obtain ⟨hbb, hinnerx⟩ := radix_inj hcol' hcol hxeq2
  have hinnerx2 : xi' * c.block_size_x + tx' = xi * c.block_size_x + tx := by omega
  obtain ⟨hxx, httx⟩ := radix_inj htx' htx hinnerx2
  exact ⟨haa, hbb, htt, httx, hyy, hxx⟩

/-- If register (yi,xi) of thread (ty,tx) is the block's unique firing
writer of the given output index, running the block delivers the staged
filter sweep there. -/
theorem runBlock_out_write {R : Type} [CommRing R] (c : Cfg) (mode : Bool)
    (input d_filter : Nat → R) (u r0 : Nat → Nat → R) (a b ty tx yi xi : Nat)
    (out : Nat → R)
    (hbsy : 0 < c.block_size_y) (hbsx : 0 < c.block_size_x)
    (hty : ty < c.block_size_y) (htx : tx < c.block_size_x)
    (hyi : yi < c.tile_size_y) (hxi : xi < c.tile_size_x)
    (hfire : fire c mode (outY c a ty yi) (outX c b tx xi))
    (huniqT : ∀ ty' tx' yi' xi', ty' < c.block_size_y → tx' < c.block_size_x →
      yi' < c.tile_size_y → xi' < c.tile_size_x →
      fire c mode (outY c a ty' yi') (outX c b tx' xi') →
      outIdx c (outY c a ty' yi') (outX c b tx' xi') =
        outIdx c (outY c a ty yi) (outX c b tx xi) →
      ty' = ty ∧ tx' = tx ∧ yi' = yi ∧ xi' = xi) :
    runBlock c mode input d_filter u r0 a b out
        (outIdx c (outY c a ty yi) (outX c b tx xi)) =
      tileVal c d_filter (stagedSh c mode input u a b) ty tx yi xi := by
  unfold runBlock
  simp only [stageBlock_sh_eq c mode input u a b out r0 hbsy hbsx]
  refine foldl_write _
    (fun o => o (outIdx c (outY c a ty yi) (outX c b tx xi)))
    (fun _ => tileVal c d_filter (stagedSh c mode input u a b) ty tx yi xi)
    (fun t => t = (ty, tx)) _ out (fun _ _ _ => rfl) ?_ ?_
    ⟨(ty, tx), threads_mem.mpr ⟨hty, htx⟩, rfl⟩
  · rintro o' t _ rfl
    beta_reduce
    exact threadOut_write c mode d_filter a b ty tx yi xi _ r0 o' hyi hxi hfire
      fun yi' xi' h1 h2 h3 h4 =>
        ⟨(huniqT ty tx yi' xi' hty htx h1 h2 h3 h4).2.2.1,
         (huniqT ty tx yi' xi' hty htx h1 h2 h3 h4).2.2.2⟩
  · rintro o' t hmem hne
    beta_reduce
    refine threadOut_skip c mode d_filter a b t.1 t.2 _ _ r0 o' ?_
    intro yi' xi' h1 h2 h3 hk
    obtain ⟨c1, c2, _, _⟩ := huniqT t.1 t.2 yi' xi'
      (threads_mem.mp hmem).1 (threads_mem.mp hmem).2 h1 h2 h3 hk
    exact hne (Prod.ext c1 c2)

/-- A block with no firing store to index k leaves it unchanged. -/
theorem runBlock_out_skip {R : Type} [CommRing R] (c : Cfg) (mode : Bool)
    (input d_filter : Nat → R) (u r0 : Nat → Nat → R) (a b k : Nat)
    (out : Nat → R)
    (hno : ∀ ty tx yi xi, ty < c.block_size_y → tx < c.block_size_x →
      yi < c.tile_size_y → xi < c.tile_size_x →
      fire c mode (outY c a ty yi) (outX c b tx xi) →
      outIdx c (outY c a ty yi) (outX c b tx xi) ≠ k) :
    runBlock c mode input d_filter u r0 a b out k = out k := by
  unfold runBlock
  refine foldl_keep _ (fun o => o k) _ out fun o' t hmem => ?_
  beta_reduce
  exact threadOut_skip c mode d_filter a b t.1 t.2 _ _ r0 o' fun yi xi h1 h2 h3 =>
    hno t.1 t.2 yi xi (threads_mem.mp hmem).1 (threads_mem.mp hmem).2 h1 h2 h3

/-- Main per-element characterization of a tiled-kernel launch: the output
element owned by register (yi,xi) of thread (ty,tx) in block (a,b) receives
the specified weighted sum, provided the store fires (and, in unconditional
mode, the grid does not overshoot the image). -/
theorem runKernel_out_covered {R : Type} [CommRing R] (c : Cfg) (mode : Bool)
    (input d_filter : Nat → R) (u r0 : Nat → Nat → R) (gy gx : Nat)
    (out0 : Nat → R) (a b ty tx yi xi : Nat)
    (hbsy : 0 < c.block_size_y) (hbsx : 0 < c.block_size_x)
    (hgrid : mode = true →
      gy * (c.block_size_y * c.tile_size_y) ≤ c.image_height ∧
      gx * (c.block_size_x * c.tile_size_x) ≤ c.image_width)
    (ha : a < gy) (hb : b < gx)
    (hty : ty < c.block_size_y) (htx : tx < c.block_size_x)
    (hyi : yi < c.tile_size_y) (hxi : xi < c.tile_size_x)
    (hmask : mode = false → outY c a ty yi < c.image_height ∧
      outX c b tx xi < c.image_width) :
    runKernel c mode input d_filter u r0 gy gx out0
        (outIdx c (outY c a ty yi) (outX c b tx xi)) =
      pureVal c input d_filter (outY c a ty yi) (outX c b tx xi) := by
  have hfire : fire c mode (outY c a ty yi) (outX c b tx xi) := by
    by_cases hm : mode = true
    · exact Or.inl hm
    · have hmf : mode = false := by
        cases mode
        · rfl
        · exact absurd rfl hm
      exact Or.inr (hmask hmf)
  have hblk : mode = true →
      (a + 1) * (c.block_size_y * c.tile_size_y) ≤ c.image_height ∧
      (b + 1) * (c.block_size_x * c.tile_size_x) ≤ c.image_width := by
    intro hm
    obtain ⟨h1, h2⟩ := hgrid hm
    exact ⟨le_trans (Nat.mul_le_mul_right _ (Nat.succ_le_of_lt ha)) h1,
      le_trans (Nat.mul_le_mul_right _ (Nat.succ_le_of_lt hb)) h2⟩
  unfold runKernel
  have hmain := foldl_write
    (fun (o : Nat → R) (bk : Nat × Nat) =>
      runBlock c mode input d_filter u r0 bk.1 bk.2 o)
    (fun o => o (outIdx c (outY c a ty yi) (outX c b tx xi)))
    (fun _ => pureVal c input d_filter (outY c a ty yi) (outX c b tx xi))
    (fun bk => bk = (a, b)) (blocks gy gx) out0 (fun _ _ _ => rfl) ?_ ?_
    ⟨(a, b), blocks_mem.mpr ⟨ha, hb⟩, rfl⟩
  · exact hmain
  · rintro o' bk _ rfl
    beta_reduce
    rw [runBlock_out_write c mode input d_filter u r0 a b ty tx yi xi o'
      hbsy hbsx hty htx hyi hxi hfire
      (fun ty' tx' yi' xi' h1 h2 h3 h4 hf' hk =>
        (writer_unique c mode gy gx hgrid ha hb hty htx hyi hxi ha hb h1 h2 h3 h4
          hfire hf' hk).2.2)]
    exact tileVal_staged c mode input d_filter u a b ty tx yi xi
      hty htx hyi hxi hblk hmask
  · rintro o' bk hmem hne
    beta_reduce
    refine runBlock_out_skip c mode input d_filter u r0 bk.1 bk.2 _ o' ?_
    intro ty' tx' yi' xi' h1 h2 h3 h4 hf' hk
    obtain ⟨c1, c2, _⟩ := writer_unique c mode gy gx hgrid ha hb hty htx hyi hxi
      (blocks_mem.mp hmem).1 (blocks_mem.mp hmem).2 h1 h2 h3 h4 hfire hf' hk
    exact hne (Prod.ext c1 c2)

/-- An output index with no firing store anywhere in the grid keeps its
initial contents. -/
theorem runKernel_out_uncovered {R : Type} [CommRing R] (c : Cfg) (mode : Bool)
    (input d_filter : Nat → R) (u r0 : Nat → Nat → R) (gy gx k : Nat)
    (out0 : Nat → R)
    (hnw : ¬ writesIdx c mode gy gx k) :
    runKernel c mode input d_filter u r0 gy gx out0 k = out0 k := by
  unfold runKernel
  refine foldl_keep _ (fun o => o k) _ out0 fun o' bk hmem => ?_
  beta_reduce
  refine runBlock_out_skip c mode input d_filter u r0 bk.1 bk.2 k o' ?_
  intro ty tx yi xi h1 h2 h3 h4 hf hk
  exact hnw ⟨bk.1, (blocks_mem.mp hmem).1, bk.2, (blocks_mem.mp hmem).2,
    ty, h1, tx, h2, yi, h3, xi, h4, hf, hk.symm⟩

/-- The running-sum double loop of the naive kernel computes the specified
weighted sum. -/
theorem convolution_naive_sum_eq {R : Type} [CommRing R] (c : Cfg)
    (input filter : Nat → R) (y x : Nat) :
    convolution_naive_sum c input filter y x = pureVal c input filter y x := by
  unfold convolution_naive_sum pureVal
  have hstep : (fun (sum : R) j =>
      (List.range c.filter_width).foldl (fun sum i =>
        sum + input ((y + j) * input_width c + (x + i)) *
          filter (j * c.filter_width + i)) sum) =
      fun (sum : R) j => sum + lsum c.filter_width fun i =>
        input ((y + j) * input_width c + (x + i)) *
          filter (j * c.filter_width + i) := by
    funext acc j
    exact foldl_add_eq_lsum c.filter_width _ acc
  rw [hstep, foldl_add_eq_lsum, zero_add]

/-- C1: for every output element (y,x) inside the image, the tiled kernel
(convolution_kernel) and the naive kernel (convolution_naive), run on the
same input buffer with the same filter coefficients (the naive kernel's
filter buffer also loaded into d_filter), write the identical weighted sum
to output index y*image_width+x — exactly, since the arithmetic is embedded
in an arbitrary commutative ring. -/
theorem c1_tiled_matches_naive {R : Type} [CommRing R] (c : Cfg)
    (input filter : Nat → R) (u r0 : Nat → Nat → R) (gy gx : Nat)
    (out0 out1 : Nat → R) (a b ty tx yi xi : Nat)
    (hbsy : 0 < c.block_size_y) (hbsx : 0 < c.block_size_x)
    (hgrid : exactTiling c = true →
      gy * (c.block_size_y * c.tile_size_y) ≤ c.image_height ∧
      gx * (c.block_size_x * c.tile_size_x) ≤ c.image_width)
    (ha : a < gy) (hb : b < gx)
    (hty : ty < c.block_size_y) (htx : tx < c.block_size_x)
    (hyi : yi < c.tile_size_y) (hxi : xi < c.tile_size_x)
    (hy : outY c a ty yi < c.image_height) (hx : outX c b tx xi < c.image_width) :
    convolution_kernel c filter input filter u r0 gy gx out0
        (outIdx c (outY c a ty yi) (outX c b tx xi)) =
      convolution_naive c input filter (outY c a ty yi) (outX c b tx xi) out1
        (outIdx c (outY c a ty yi) (outX c b tx xi)) := by
  unfold convolution_kernel
  rw [runKernel_out_covered c (exactTiling c) input filter u r0 gy gx out0
    a b ty tx yi xi hbsy hbsx hgrid ha hb hty htx hyi hxi (fun _ => ⟨hy, hx⟩)]
  unfold convolution_naive
  rw [if_pos (⟨hy, hx⟩ : _ ∧ _)]
  rw [if_pos rfl, convolution_naive_sum_eq]

/-- C2: a naive-kernel thread at (y,x) is active exactly when
y < image_height and x < image_width; an active thread writes the double-loop
weighted sum exactly once to output[y*image_width+x] and changes nothing
else; an inactive thread writes nothing. -/
theorem c2_naive_contract {R : Type} [CommRing R] (c : Cfg)
    (input filter : Nat → R) (y x : Nat) (output : Nat → R) :
    convolution_naive c input filter y x output =
      if y < c.image_height ∧ x < c.image_width then
        Function.update output (y * c.image_width + x)
          (lsum c.filter_height fun j => lsum c.filter_width fun i =>
            input ((y + j) * input_width c + (x + i)) *
              filter (j * c.filter_width + i))
      else output := by
  unfold convolution_naive
  by_cases h : y < c.image_height ∧ x < c.image_width
  · rw [if_pos h, if_pos h]
    funext k
    rw [Function.update_apply, convolution_naive_sum_eq]
    rfl
  · rw [if_neg h, if_neg h]

/-- C3: when the boundary-checked store path is compiled, every store of the
tiled kernel is guarded by y < image_height && x < image_width, so for every
launch grid no output index outside the image is ever written: it keeps its
initial contents for every initial buffer. -/
theorem c3_no_out_of_range_store {R : Type} [CommRing R] (c : Cfg)
    (d_filter input filter : Nat → R) (u r0 : Nat → Nat → R) (gy gx k : Nat)
    (out0 : Nat → R)
    (hmode : exactTiling c = false)
    (hk : ∀ y, y < c.image_height → ∀ x, x < c.image_width → k ≠ outIdx c y x) :
    convolution_kernel c d_filter input filter u r0 gy gx out0 k = out0 k := by
  unfold convolution_kernel
  refine runKernel_out_uncovered c (exactTiling c) input d_filter u r0 gy gx k out0 ?_
  rintro ⟨a, ha, b, hb, ty, hty, tx, htx, yi, hyi, xi, hxi, hf, hkk⟩
  rcases hf with hm | ⟨hy, hx⟩
  · rw [hmode] at hm
    exact absurd hm (by decide)
  · exact hk _ hy _ hx hkk

/-- C4: when image_height is the exact multiple gy * (block_size_y*tile_size_y)
and image_width is the exact multiple gx * (block_size_x*tile_size_x), the
unconditional (exact-tiling) code path and the boundary-checked code path of
the tiled kernel produce identical output buffers for every input, filter,
and uninitialized contents. -/
theorem c4_exact_mode_equiv {R : Type} [CommRing R] (c : Cfg)
    (input d_filter : Nat → R) (u r0 : Nat → Nat → R) (gy gx : Nat)
    (out0 : Nat → R)
    (hbsy : 0 < c.block_size_y) (hbsx : 0 < c.block_size_x)
    (hgy : c.image_height = gy * (c.block_size_y * c.tile_size_y))
    (hgx : c.image_width = gx * (c.block_size_x * c.tile_size_x)) :
    runKernel c true input d_filter u r0 gy gx out0 =
      runKernel c false input d_filter u r0 gy gx out0 := by
  funext k
  by_cases hw : writesIdx c false gy gx k
  · obtain ⟨a, ha, b, hb, ty, hty, tx, htx, yi, hyi, xi, hxi, hf, rfl⟩ := hw
    have hy : outY c a ty yi < c.image_height ∧ outX c b tx xi < c.image_width := by
      rcases hf with hm | hb2
      · exact absurd hm (by decide)
      · exact hb2
    rw [runKernel_out_covered c true input d_filter u r0 gy gx out0
      a b ty tx yi xi hbsy hbsx (fun _ => ⟨le_of_eq hgy.symm, le_of_eq hgx.symm⟩)
      ha hb hty htx hyi hxi (fun h => nomatch h)]
    rw [runKernel_out_covered c false input d_filter u r0 gy gx out0
      a b ty tx yi xi hbsy hbsx (fun h => nomatch h)
      ha hb hty htx hyi hxi (fun _ => hy)]
  · have hw' : ¬ writesIdx c true gy gx k := by
      rintro ⟨a, ha, b, hb, ty, hty, tx, htx, yi, hyi, xi, hxi, hf, hkk⟩
      refine hw ⟨a, ha, b, hb, ty, hty, tx, htx, yi, hyi, xi, hxi, Or.inr ⟨?_, ?_⟩, hkk⟩
      · have h1 : ty + yi * c.block_size_y < c.block_size_y * c.tile_size_y :=
          sub_extent_lt hty hyi
        have h2 : (a + 1) * (c.block_size_y * c.tile_size_y) ≤
            gy * (c.block_size_y * c.tile_size_y) :=
          Nat.mul_le_mul_right _ (Nat.succ_le_of_lt ha)
        have h3 : (a + 1) * (c.block_size_y * c.tile_size_y) =
            a * (c.block_size_y * c.tile_size_y) + c.block_size_y * c.tile_size_y := by
          ring
        simp only [outY, blockY]
        omega
      · have h1 : tx + xi * c.block_size_x < c.block_size_x * c.tile_size_x :=
          sub_extent_lt htx hxi
        have h2 : (b + 1) * (c.block_size_x * c.tile_size_x) ≤
            gx * (c.block_size_x * c.tile_size_x) :=
          Nat.mul_le_mul_right _ (Nat.succ_le_of_lt hb)
        have h3 : (b + 1) * (c.block_size_x * c.tile_size_x) =
            b * (c.block_size_x * c.tile_size_x) + c.block_size_x * c.tile_size_x := by
          ring
        simp only [outX, blockX]
        omega
    rw [runKernel_out_uncovered c true input d_filter u r0 gy gx k out0 hw']
    rw [runKernel_out_uncovered c false input d_filter u r0 gy gx k out0 hw]

/-- C5: with input_height = image_height + 2*(filter_height/2) and
input_width = image_width + 2*(filter_width/2), every input index read by an
active naive-kernel thread, (y+j)*input_width + (x+i), lies inside the input
buffer: the halo is sufficient even at the first and last output
row/column. -/
theorem c5_halo_sufficient (c : Cfg) (y x j i : Nat)
    (hy : y < c.image_height) (hx : x < c.image_width)
    (hj : j < c.filter_height) (hi : i < c.filter_width) :
    (y + j) * input_width c + (x + i) < input_height c * input_width c := by
  have h1 : y + j < input_height c := by
    simp only [input_height, border_height]
    omega
  have h2 : x + i < input_width c := by
    simp only [input_width, border_width]
    omega
  calc (y + j) * input_width c + (x + i)
      < (y + j) * input_width c + input_width c := by omega
    _ = (y + j + 1) * input_width c := by ring
    _ ≤ input_height c * input_width c := Nat.mul_le_mul_right _ (by omega)

/-- C6 (amended): in boundary-safe mode, every shared-memory position read by
the compute phase while accumulating a register whose output element is
inside the image is a position the staging phase wrote.  (As originally
stated — that skipped positions are never read by the compute phase at
all — the claim is false: the compute phase reads skipped positions for
registers whose stores are masked off; see the counterexample.) -/
theorem c6_stored_reads_staged (c : Cfg) (a b ty tx yi xi : Nat)
    (hmode : exactTiling c = false)
    (hty : ty < c.block_size_y) (htx : tx < c.block_size_x)
    (hyi : yi < c.tile_size_y) (hxi : xi < c.tile_size_x)
    (hy : outY c a ty yi < c.image_height) (hx : outX c b tx xi < c.image_width) :
    ∀ p ∈ computeReads c ty tx yi xi, isStaged c false a b p.1 p.2 = true := by
  intro p hp
  unfold computeReads at hp
  rw [List.mem_flatMap] at hp
  obtain ⟨i, hi, hp⟩ := hp
  rw [List.mem_map] at hp
  obtain ⟨j, hj, rfl⟩ := hp
  exact isStaged_of_read c false a b ty tx yi xi i j hty htx hyi hxi
    (List.mem_range.mp hi) (List.mem_range.mp hj)
    (fun h => nomatch h) (fun _ => ⟨hy, hx⟩)

/-- C6 counterexample: in the boundary-safe configuration cW (3×3 image,
3×3 filter, 2×2 threads, 1×1 registers), block (1,0), thread (1,0): the
staging phase skips shared position (3,0) (its global row 5 is out of range
of input_height 5), leaving the uninitialized contents there, yet the
compute phase reads (3,0) while accumulating register (0,0): the accumulated
value changes when only the uninitialized scratch contents change. -/
theorem c6_compute_reads_skipped :
    exactTiling cW = false ∧
    1 < cW.block_size_y ∧ 0 < cW.block_size_x ∧
    0 < cW.tile_size_y ∧ 0 < cW.tile_size_x ∧
    (3, 0) ∈ computeReads cW 1 0 0 0 ∧
    isStaged cW false 1 0 3 0 = false ∧
    (stageBlock cW false (fun k => (k : Int)) 1 0
        ⟨fun _ => 0, fun _ _ => 1000, fun _ _ => 0⟩).sh 3 0 = 1000 ∧
    (computeThread cW (fun _ => (1 : Int)) 1 0 (initAcc cW
        ⟨fun _ => 0, (stageBlock cW false (fun k => (k : Int)) 1 0
          ⟨fun _ => 0, fun _ _ => 1000, fun _ _ => 0⟩).sh, fun _ _ => 0⟩)).sum 0 0 ≠
      (computeThread cW (fun _ => (1 : Int)) 1 0 (initAcc cW
        ⟨fun _ => 0, (stageBlock cW false (fun k => (k : Int)) 1 0
          ⟨fun _ => 0, fun _ _ => 2000, fun _ _ => 0⟩).sh, fun _ _ => 0⟩)).sum 0 0 := by
  decide

/-- C7: the staging phase (per thread and for the whole block) writes only
the shared scratch tile — it changes neither the output buffer nor the
registers; the register-zeroing and the accumulation phase write only the
thread's registers — they change neither the output buffer nor the scratch
tile.  Hence the output buffer is modified only during the store phase. -/
theorem c7_phase_frame {R : Type} [CommRing R] (c : Cfg) (mode : Bool)
    (input d_filter : Nat → R) (a b ty tx : Nat) (s : KState R) :
    ((stageThread c mode input a b ty tx s).output = s.output ∧
      (stageThread c mode input a b ty tx s).sum = s.sum) ∧
    ((stageBlock c mode input a b s).output = s.output ∧
      (stageBlock c mode input a b s).sum = s.sum) ∧
    ((initAcc c s).output = s.output ∧ (initAcc c s).sh = s.sh) ∧
    ((computeThread c d_filter ty tx s).output = s.output ∧
      (computeThread c d_filter ty tx s).sh = s.sh) :=
  ⟨⟨stageThread_output c mode input a b ty tx s, stageThread_sum c mode input a b ty tx s⟩,
   ⟨stageBlock_output c mode input a b s, stageBlock_sum c mode input a b s⟩,
   ⟨initAcc_output c s, initAcc_sh c s⟩,
   ⟨computeThread_output c d_filter ty tx s, computeThread_sh c d_filter ty tx s⟩⟩

/-- C8: the tiled kernel is deterministic: its visible output does not depend
on the uninitialized shared-memory contents u or the uninitialized register
contents r0 — two launches with identical input buffer and identical filter
coefficients produce identical output buffers.  (The naive kernel has no
uninitialized state at all in the model: its accumulator is explicitly
zero-initialized and it reads only the input and filter buffers.) -/
theorem c8_deterministic {R : Type} [CommRing R] (c : Cfg)
    (d_filter input filter : Nat → R) (u u' r0 r0' : Nat → Nat → R)
    (gy gx : Nat) (out0 : Nat → R)
    (hbsy : 0 < c.block_size_y) (hbsx : 0 < c.block_size_x)
    (hgrid : exactTiling c = true →
      gy * (c.block_size_y * c.tile_size_y) ≤ c.image_height ∧
      gx * (c.block_size_x * c.tile_size_x) ≤ c.image_width) :
    convolution_kernel c d_filter input filter u r0 gy gx out0 =
      convolution_kernel c d_filter input filter u' r0' gy gx out0 := by
  funext k
  unfold convolution_kernel
  by_cases hw : writesIdx c (exactTiling c) gy gx k
  · obtain ⟨a, ha, b, hb, ty, hty, tx, htx, yi, hyi, xi, hxi, hf, rfl⟩ := hw
    have hmask : exactTiling c = false →
        outY c a ty yi < c.image_height ∧ outX c b tx xi < c.image_width := by
      intro hm
      rcases hf with hm' | hb2
      · rw [hm] at hm'
        exact absurd hm' (by decide)
      · exact hb2
    rw [runKernel_out_covered c (exactTiling c) input d_filter u r0 gy gx out0
      a b ty tx yi xi hbsy hbsx hgrid ha hb hty htx hyi hxi hmask]
    rw [runKernel_out_covered c (exactTiling c) input d_filter u' r0' gy gx out0
      a b ty tx yi xi hbsy hbsx hgrid ha hb hty htx hyi hxi hmask]
  · rw [runKernel_out_uncovered c (exactTiling c) input d_filter u r0 gy gx k out0 hw]
    rw [runKernel_out_uncovered c (exactTiling c) input d_filter u' r0' gy gx k out0 hw]

/-- C9: every loop of both kernels runs over an explicit finite iteration
list whose length is bounded by compile-time extents or buffer dimensions —
the launch grid has exactly gy*gx blocks of block_size_y*block_size_x
threads, a strided staging loop performs at most its bound many iterations,
and the filter/register loops have exactly the compile-time trip counts —
so in the embedding every kernel invocation is a total function of its
buffers and terminates. -/
theorem c9_bounded_loops (c : Cfg) (gy gx start step bound : Nat) :
    (blocks gy gx).length = gy * gx ∧
    (threads c).length = c.block_size_y * c.block_size_x ∧
    (strideList start step bound).length ≤ bound ∧
    (List.range c.filter_height).length = c.filter_height ∧
    (List.range c.filter_width).length = c.filter_width ∧
    (List.range c.tile_size_y).length = c.tile_size_y ∧
    (List.range c.tile_size_x).length = c.tile_size_x := by
  have hpairs : ∀ ny nx : Nat,
      ((List.range ny).flatMap fun a => (List.range nx).map fun b => (a, b)).length =
        ny * nx := by
    intro ny nx
    rw [List.length_flatMap]
    simp only [Function.comp_def]
    have h : ((List.range ny).map fun a =>
        ((List.range nx).map fun b => (a, b)).length) = (List.range ny).map fun _ => nx := by
      refine List.map_congr_left fun a _ => ?_
      rw [List.length_map, List.length_range]
    rw [h, List.map_const', List.sum_replicate, List.length_range, smul_eq_mul]
  refine ⟨hpairs gy gx, hpairs c.block_size_y c.block_size_x, ?_,
    List.length_range _, List.length_range _, List.length_range _, List.length_range _⟩
  calc (strideList start step bound).length
      ≤ (List.range bound).length := List.length_filter_le _ _
    _ = bound := List.length_range bound

/-- C10: the tiled kernel never dereferences its filter argument — its output
is a function of d_filter, so two launches differing only in the filter
argument coincide; the naive kernel does read its filter argument (two
filter buffers give different sums on a concrete input); and tiled/naive
agreement fails when d_filter differs from the naive kernel's filter buffer,
so the equivalence requires the precondition d_filter = filter. -/
theorem c10_filter_argument_ignored :
    (∀ (R : Type) [CommRing R] (c : Cfg) (d_filter input f1 f2 : Nat → R)
      (u r0 : Nat → Nat → R) (gy gx : Nat) (out0 : Nat → R),
      convolution_kernel c d_filter input f1 u r0 gy gx out0 =
        convolution_kernel c d_filter input f2 u r0 gy gx out0) ∧
    (convolution_naive_sum cM (fun _ => (1 : Int)) (fun _ => 2) 0 0 ≠
      convolution_naive_sum cM (fun _ => (1 : Int)) (fun _ => 3) 0 0) ∧
    (convolution_kernel cM (fun _ => (2 : Int)) (fun _ => 1) (fun _ => 3)
        (fun _ _ => 0) (fun _ _ => 0) 1 1 (fun _ => 0) (outIdx cM 0 0) ≠
      convolution_naive cM (fun _ => (1 : Int)) (fun _ => 3) 0 0 (fun _ => 0)
        (outIdx cM 0 0)) := by
  refine ⟨fun R _ c d_filter input f1 f2 u r0 gy gx out0 => rfl, ?_, ?_⟩
  · decide
  · decide

/-- Witness for C1: concrete boundary-mode configuration cW, block (0,0),
thread (1,1), register (0,0), i.e. output element (1,1). -/
theorem c1_witness :
    convolution_kernel cW (fun k => (k : Int) + 1) (fun k => (k : Int))
        (fun k => (k : Int) + 1) (fun _ _ => 7) (fun _ _ => 11) 2 2 (fun _ => 0)
        (outIdx cW (outY cW 0 1 0) (outX cW 0 1 0)) =
      convolution_naive cW (fun k => (k : Int)) (fun k => (k : Int) + 1)
        (outY cW 0 1 0) (outX cW 0 1 0) (fun _ => 5)
        (outIdx cW (outY cW 0 1 0) (outX cW 0 1 0)) :=
  c1_tiled_matches_naive cW (fun k => (k : Int)) (fun k => (k : Int) + 1)
    (fun _ _ => 7) (fun _ _ => 11) 2 2 (fun _ => 0) (fun _ => 5) 0 0 1 1 0 0
    (by decide) (by decide) (fun h => absurd h (by decide))
    (by decide) (by decide) (by decide) (by decide) (by decide) (by decide)
    (by decide) (by decide)

/-- Witness for C3: in configuration cW the flat index 9 lies outside the
3×3 image, and the tiled kernel leaves it untouched. -/
theorem c3_witness :
    convolution_kernel cW (fun k => (k : Int)) (fun k => (k : Int) + 1)
        (fun k => (k : Int) + 2) (fun _ _ => 7) (fun _ _ => 11) 2 2
        (fun _ => 42) 9 = 42 :=
  c3_no_out_of_range_store cW (fun k => (k : Int)) (fun k => (k : Int) + 1)
    (fun k => (k : Int) + 2) (fun _ _ => 7) (fun _ _ => 11) 2 2 9
    (fun _ => 42) (by decide) (by decide)

/-- Witness for C4: configuration cE has image extents 4 = 2*(2*1) on both
axes, and the two code paths coincide on a 2×2 grid. -/
theorem c4_witness :
    runKernel cE true (fun k => (k : Int)) (fun k => (k : Int) + 1)
        (fun _ _ => 7) (fun _ _ => 11) 2 2 (fun _ => 0) =
      runKernel cE false (fun k => (k : Int)) (fun k => (k : Int) + 1)
        (fun _ _ => 7) (fun _ _ => 11) 2 2 (fun _ => 0) :=
  c4_exact_mode_equiv cE (fun k => (k : Int)) (fun k => (k : Int) + 1)
    (fun _ _ => 7) (fun _ _ => 11) 2 2 (fun _ => 0)
    (by decide) (by decide) (by decide) (by decide)

/-- Witness for C5: in configuration cW, the bottom-right read of the
top-left output element is in bounds. -/
theorem c5_witness :
    (0 + 2) * input_width cW + (0 + 2) < input_height cW * input_width cW :=
  c5_halo_sufficient cW 0 0 2 2 (by decide) (by decide) (by decide) (by decide)

/-- Witness for C6 (amended): in configuration cW, block (0,0), thread (0,0),
register (0,0) — whose output element (0,0) is stored — the read of shared
position (0,0) is staged. -/
theorem c6_witness : isStaged cW false 0 0 (0, 0).1 (0, 0).2 = true :=
  c6_stored_reads_staged cW 0 0 0 0 0 0 (by decide) (by decide) (by decide)
    (by decide) (by decide) (by decide) (by decide) (0, 0) (by decide)

/-- Witness for C8: two launches of the tiled kernel on cW differing only in
the uninitialized shared-memory and register contents coincide. -/
theorem c8_witness :
    convolution_kernel cW (fun k => (k : Int)) (fun k => (k : Int) + 1)
        (fun k => (k : Int)) (fun _ _ => 7) (fun _ _ => 11) 2 2 (fun _ => 0) =
      convolution_kernel cW (fun k => (k : Int)) (fun k => (k : Int) + 1)
        (fun k => (k : Int)) (fun _ _ => 13) (fun _ _ => 17) 2 2 (fun _ => 0) :=
  c8_deterministic cW (fun k => (k : Int)) (fun k => (k : Int) + 1)
    (fun k => (k : Int)) (fun _ _ => 7) (fun _ _ => 13) (fun _ _ => 11)
    (fun _ _ => 17) 2 2 (fun _ => 0) (by decide) (by decide)
    (fun h => absurd h (by decide))

end Convolution
